import Mathlib

/-!
Verification of the QAStudio Playwright reporter: a shallow embedding of the
result-aggregation state machine (`QAStudioReporter`), the retrying HTTP client
(`QAStudioAPIClient`), and the pure helpers of `utils.ts`, together with proofs
of the specified properties.
-/

namespace QAStudioPlaywright

/-! ## Generic string helpers

JavaScript `String.prototype.startsWith` and `String.prototype.includes`,
modelled on character lists. -/

/-- Does the second list start with the first one?  Model of the leading-match
test used by `startsWith`. -/
def charsLead : List Char → List Char → Bool
  | [], _ => true
  | _ :: _, [] => false
  | a :: as, b :: bs => a = b && charsLead as bs

/-- Model of JavaScript `s.startsWith(pre)`. -/
def strStarts (s p : String) : Bool :=
  charsLead p.toList s.toList

/-- Helper for `strContains`: does `sub` occur in the haystack list? -/
def containsAux (sub : List Char) : List Char → Bool
  | [] => sub.isEmpty
  | c :: rest => charsLead sub (c :: rest) || containsAux sub rest

/-- Model of JavaScript `s.includes(sub)`. -/
def strContains (s sub : String) : Bool :=
  containsAux sub.toList s.toList

/-- Model of JavaScript `s.toLowerCase()` for the ASCII strings involved. -/
def strToLower (s : String) : String :=
  String.mk (s.toList.map Char.toLower)

/-- Model of JavaScript `s.trim()`: drop whitespace from both ends. -/
def trimChars (l : List Char) : List Char :=
  ((l.dropWhile Char.isWhitespace).reverse.dropWhile Char.isWhitespace).reverse

/-! ## `utils.ts`: attachment classification -/

/-- The four attachment kinds returned by `determineAttachmentType`. -/
inductive AttachmentType
  | screenshot
  | video
  | trace
  | other
deriving DecidableEq

/-- Embedding of `determineAttachmentType` (utils.ts lines 110-124): each branch
tests a content-type prefix OR a lower-cased name substring, in order. -/
def determineAttachmentType (name contentType : String) : AttachmentType :=
  if strStarts contentType "image/" || strContains (strToLower name) "screenshot" then
    AttachmentType.screenshot
  else if strStarts contentType "video/" || strContains (strToLower name) "video" then
    AttachmentType.video
  else if strContains (strToLower name) "trace" then
    AttachmentType.trace
  else
    AttachmentType.other

/-! ## `utils.ts`: test-case id extraction -/

/-- A Playwright test annotation: a `type` string and an optional description. -/
structure Annot where
  type : String
  description : Option String
deriving DecidableEq

/-- Uppercase ASCII letter test, the `[A-Z]` character class. -/
def isUpperLetter (c : Char) : Bool :=
  'A' ≤ c && c ≤ 'Z'

/-- Embedding of the regular expression match `title.match(/^\[([A-Z]+-\d+)\]/)`
in `extractTestCaseId` (utils.ts line 43): a leading bracketed token of
uppercase letters, a hyphen and digits; returns the captured group. -/
def titleCaseId (title : String) : Option String :=
  match title.toList with
  | '[' :: rest =>
      let letters := rest.takeWhile isUpperLetter
      let rest2 := rest.dropWhile isUpperLetter
      if letters.isEmpty then none
      else
        match rest2 with
        | '-' :: rest3 =>
            let digits := rest3.takeWhile Char.isDigit
            let rest4 := rest3.dropWhile Char.isDigit
            if digits.isEmpty then none
            else
              match rest4 with
              | ']' :: _ => some (String.mk (letters ++ '-' :: digits))
              | _ => none
        | _ => none
  | _ => none

/-- Embedding of `extractTestCaseId` (utils.ts lines 35-49): the first
annotation of type `testCaseId` wins when its description is truthy
(present and non-empty); otherwise the title pattern is tried. -/
def extractTestCaseId (annotations : List Annot) (title : String) : Option String :=
  match annotations.find? (fun a => decide (a.type = "testCaseId")) with
  | some a =>
      match a.description with
      | some d => if d = "" then titleCaseId title else some d
      | none => titleCaseId title
  | none => titleCaseId title

/-! ## `utils.ts`: `batchArray`

The source is an index loop (`for (let i = 0; i < array.length; i += size)`
pushing `array.slice(i, i + size)`).  The loop is embedded with an explicit
step budget (`fuel`): `none` means the budget was not enough to reach the
loop exit, which is how non-termination for `size ≤ 0` is made observable. -/

/-- Model of JavaScript `array.slice(a, b)` with integer arguments: negative
indices count from the end, and both ends are clamped to the array bounds. -/
def jsSlice {α : Type} (l : List α) (a b : Int) : List α :=
  let len : Int := l.length
  let s := if a < 0 then max (len + a) 0 else min a len
  let e := if b < 0 then max (len + b) 0 else min b len
  (l.drop s.toNat).take (e - s).toNat

/-- One-loop embedding of the body of `batchArray` (utils.ts lines 175-181):
index `i` starts at 0 and advances by `size` while `i < array.length`,
each iteration contributing `array.slice(i, i + size)`. -/
def batchLoop {α : Type} (l : List α) (size : Int) : Nat → Int → Option (List (List α))
  | 0, i => if i < (l.length : Int) then none else some []
  | fuel + 1, i =>
      if i < (l.length : Int) then
        (batchLoop l size fuel (i + size)).map (fun bs => jsSlice l i (i + size) :: bs)
      else some []

/-- Embedding of `batchArray` (utils.ts lines 175-181), run with a step budget
of `array.length`, which suffices exactly when the loop terminates
(every iteration with a positive `size` consumes at least one element). -/
def batchArray {α : Type} (l : List α) (size : Int) : Option (List (List α)) :=
  batchLoop l size l.length 0

/-- Reference chunking function: chunks of size `m + 1`, taken greedily. -/
def chunksPos {α : Type} (m : Nat) : List α → List (List α)
  | [] => []
  | x :: xs => ((x :: xs).take (m + 1)) :: chunksPos m (xs.drop m)
termination_by l => l.length
decreasing_by
  simp only [List.length_cons, List.length_drop]
  omega

/-! ## `utils.ts`: ANSI stripping and URL sanitisation -/

/-- The character class `[0-9;]` of the ANSI escape pattern. -/
def ansiParamChar (c : Char) : Bool :=
  c.isDigit || c = ';'

/-- Global replacement of `/\x1b\[[0-9;]*[a-zA-Z]/` by the empty string
(first `.replace` in `stripAnsi`, utils.ts line 222), as a left-to-right
scan: when no match starts at the current character, that character is kept
and the scan advances by one. -/
def stripEsc : List Char → List Char
  | [] => []
  | '\x1b' :: '[' :: rest2 =>
      match h : rest2.dropWhile ansiParamChar with
      | d :: rest4 =>
          if d.isAlpha then stripEsc rest4
          else '\x1b' :: stripEsc ('[' :: rest2)
      | [] => '\x1b' :: stripEsc ('[' :: rest2)
  | c :: rest => c :: stripEsc rest
termination_by l => l.length
decreasing_by
  all_goals simp only [List.length_cons]
  · have hle := (List.dropWhile_sublist (l := rest2) ansiParamChar).length_le
    rw [h] at hle
    simp only [List.length_cons] at hle
    omega
  · omega
  · omega
  · omega

/-- Global replacement of `/\[\d+m/` by the empty string (second `.replace` in
`stripAnsi`, utils.ts line 224). -/
def stripBr : List Char → List Char
  | [] => []
  | '[' :: rest =>
      match h : rest.dropWhile Char.isDigit with
      | 'm' :: rest2 =>
          if rest.takeWhile Char.isDigit ≠ [] then stripBr rest2
          else '[' :: stripBr rest
      | _ => '[' :: stripBr rest
  | c :: rest => c :: stripBr rest
termination_by l => l.length
decreasing_by
  all_goals simp only [List.length_cons]
  · have hle := (List.dropWhile_sublist (l := rest) Char.isDigit).length_le
    rw [h] at hle
    simp only [List.length_cons] at hle
    omega
  · omega
  · omega
  · omega

/-- Global replacement of `/\[\d+;\d+m/` by the empty string (third `.replace`
in `stripAnsi`, utils.ts line 226). -/
def stripSemi : List Char → List Char
  | [] => []
  | '[' :: rest =>
      match h : rest.dropWhile Char.isDigit with
      | ';' :: rest2 =>
          if rest.takeWhile Char.isDigit ≠ [] then
            match h2 : rest2.dropWhile Char.isDigit with
            | 'm' :: rest3 =>
                if rest2.takeWhile Char.isDigit ≠ [] then stripSemi rest3
                else '[' :: stripSemi rest
            | _ => '[' :: stripSemi rest
          else '[' :: stripSemi rest
      | _ => '[' :: stripSemi rest
  | c :: rest => c :: stripSemi rest
termination_by l => l.length
decreasing_by
  all_goals simp only [List.length_cons]
  · have hle := (List.dropWhile_sublist (l := rest) Char.isDigit).length_le
    rw [h] at hle
    have hle2 := (List.dropWhile_sublist (l := rest2) Char.isDigit).length_le
    rw [h2] at hle2
    simp only [List.length_cons] at hle hle2
    omega
  · omega
  · omega
  · omega
  · omega
  · omega

/-- The three replacement passes of `stripAnsi`, in source order. -/
def stripPasses (l : List Char) : List Char :=
  stripSemi (stripBr (stripEsc l))

/-- The result of `stripAnsi` on a present, non-empty string: the three
replacement passes followed by `.trim()`. -/
def stripAnsiStr (s : String) : String :=
  String.mk (trimChars (stripPasses s.toList))

/-- Embedding of `stripAnsi` (utils.ts lines 217-238).  A missing or empty
(falsy) input is returned unchanged; otherwise the escape-sequence patterns
are removed and the result trimmed. -/
def stripAnsi (s : Option String) : Option String :=
  match s with
  | none => none
  | some str => if str = "" then some str else some (stripAnsiStr str)

/-- Helper for `urlCanParse`: after the leading letter, scheme characters
(letters, digits, `+`, `-`, `.`) until a `:` is found. -/
def hasSchemeColon : List Char → Bool
  | [] => false
  | c :: rest =>
      if c = ':' then true
      else (c.isAlphanum || c = '+' || c = '-' || c = '.') && hasSchemeColon rest

/-- Modelled from the spec: the host platform's WHATWG `URL` constructor,
which is external to this repository ("URL fields are additionally parsed and
rejected (fatal configuration error) if not well-formed after stripping").
A string is accepted when it begins with a URL scheme — an ASCII letter
followed by letters, digits, `+`, `-` or `.` — terminated by a colon.  This
captures the validity decisions the spec relies on: a string with no scheme,
such as `"not a url"`, is rejected, while `https://…` strings parse. -/
def urlCanParse (s : String) : Bool :=
  match s.toList with
  | [] => false
  | c :: rest => c.isAlpha && hasSchemeColon rest

/-- Embedding of `sanitizeUrl` (utils.ts lines 243-255): strip ANSI codes,
then parse; an unparsable result is a thrown configuration error, modelled
as `Except.error`. -/
def sanitizeUrl (url : String) : Except String String :=
  let cleaned := (stripAnsi (some url)).getD ""
  if urlCanParse cleaned then Except.ok cleaned
  else Except.error ("Invalid URL format: " ++ cleaned)

/-! ## `utils.ts` / reporter constructor: option validation -/

/-- The reporter options consulted by `validateOptions` and by the batch-size
default in the reporter constructor.  `Option` models absent (`undefined`)
fields; an empty string is falsy in the source's checks. -/
structure ReporterOptions where
  apiUrl : Option String
  apiKey : Option String
  projectId : Option String
  batchSize : Option Int
deriving DecidableEq

/-- Embedding of `validateOptions` (utils.ts lines 267-288): `apiUrl`,
`apiKey` and `projectId` must be present and truthy, and `apiUrl` must
survive `sanitizeUrl`.  No other option is examined. -/
def validateOptions (o : ReporterOptions) : Except String Unit :=
  match o.apiUrl with
  | none => Except.error "apiUrl is required"
  | some u =>
      if u = "" then Except.error "apiUrl is required"
      else
        match o.apiKey with
        | none => Except.error "apiKey is required"
        | some k =>
            if k = "" then Except.error "apiKey is required"
            else
              match o.projectId with
              | none => Except.error "projectId is required"
              | some p =>
                  if p = "" then Except.error "projectId is required"
                  else
                    match sanitizeUrl u with
                    | Except.ok _ => Except.ok ()
                    | Except.error e => Except.error e

/-- The batch size the reporter constructor resolves (part_002 line 84):
`sanitizedOptions.batchSize ?? 10`, with no further validation. -/
def resolvedBatchSize (o : ReporterOptions) : Int :=
  o.batchSize.getD 10

/-! ## `api-client.ts`: the retrying request loop

`QAStudioAPIClient.request` (lines 99-130) and `uploadMultipart`
(lines 206-229) run the same loop: up to `maxRetries` attempts, a capped
exponential backoff sleep before every attempt after the first, and an
immediate stop on a 4xx `APIError`.  The outcome of each single attempt
(`makeRequest` / `makeMultipartRequest`) is abstracted as a function from
the attempt index to a success value or an error. -/

/-- Errors an attempt can produce: an `APIError` carrying the HTTP status
code (non-2xx response), or a transport-level failure (connection error,
timeout, unparsable 2xx body), which carries no status code. -/
inductive ReqError
  | apiError (statusCode : Nat) (message : String)
  | netError (message : String)
deriving DecidableEq

/-- The check on api-client.ts line 123: an `APIError` whose status code lies
in `[400, 500)`. -/
def isClientError : ReqError → Bool
  | ReqError.apiError code _ => 400 ≤ code && code < 500
  | ReqError.netError _ => false

/-- The backoff delay slept before retry attempt `k`
(api-client.ts line 114): `Math.min(1000 * Math.pow(2, attempt), 10000)`. -/
def backoffDelay (k : Nat) : Nat :=
  min (1000 * 2 ^ k) 10000

/-- The error thrown when the loop exits without ever recording an error. -/
def genericFailure : ReqError :=
  ReqError.netError "Request failed after all retries"

/-- The `throw lastError || new Error(...)` at the end of the loop
(api-client.ts line 129): the last recorded error, or the generic failure. -/
def requestFail {α : Type} (lastError : Option ReqError) : Except ReqError α :=
  Except.error (lastError.getD genericFailure)

/-- The retry loop of `request` from attempt index `attempt` on, with the
last recorded error.  Returns the final outcome, the number of attempts
actually performed from this point, and the list of backoff delays slept. -/
def requestGo {α : Type} (outcomes : Nat → Except ReqError α) (maxRetries : Nat)
    (attempt : Nat) (lastError : Option ReqError) :
    Except ReqError α × Nat × List Nat :=
  if _h : attempt < maxRetries then
    let ds := if 0 < attempt then [backoffDelay attempt] else []
    match outcomes attempt with
    | Except.ok v => (Except.ok v, 1, ds)
    | Except.error e =>
        if isClientError e then (Except.error e, 1, ds)
        else
          let r := requestGo outcomes maxRetries (attempt + 1) (some e)
          (r.1, r.2.1 + 1, ds ++ r.2.2)
  else
    (requestFail lastError, 0, [])
termination_by maxRetries - attempt

/-- Embedding of `QAStudioAPIClient.request` / `uploadMultipart`: the retry
loop started at attempt 0 with no recorded error. -/
def request {α : Type} (outcomes : Nat → Except ReqError α) (maxRetries : Nat) :
    Except ReqError α × Nat × List Nat :=
  requestGo outcomes maxRetries 0 none

/-! ## The reporter state machine (part_002)

`QAStudioReporter` keeps a working map from title-path key to the stored
test/result data, plus four counters.  `onTestBegin` overwrites the map
entry; `onTestEnd` merges the result into an existing entry and bumps the
counters exactly when `result.retry === test.retries`; `sendTestResults`
transmits the entries whose stored result is terminal. -/

/-- The Playwright test statuses a `TestResult` can carry. -/
inductive TStatus
  | passed
  | failed
  | timedOut
  | skipped
  | interrupted
deriving DecidableEq

/-- The fields of a working-map entry (`this.state.tests` values) that the
aggregation logic reads: the stored result's attempt index and status, and
the stored test's configured retry maximum. -/
structure TestEntry where
  resultRetry : Nat
  resultStatus : TStatus
  testRetries : Nat
deriving DecidableEq

/-- The reporter state touched by the lifecycle callbacks: the working map
(insertion-ordered, as a JavaScript `Map`) and the summary counters. -/
structure ReporterState where
  tests : List (String × TestEntry)
  totalTests : Nat
  passedTests : Nat
  failedTests : Nat
  skippedTests : Nat
deriving DecidableEq

/-- The reporter's initial state: empty map, zero counters. -/
def initialState : ReporterState :=
  ⟨[], 0, 0, 0, 0⟩

/-- JavaScript `Map.prototype.get` on the association-list model. -/
def mapGet (m : List (String × TestEntry)) (k : String) : Option TestEntry :=
  match m with
  | [] => none
  | p :: rest => if p.1 = k then some p.2 else mapGet rest k

/-- JavaScript `Map.prototype.set`: replace the entry in place when the key
is present, append otherwise. -/
def mapSet (m : List (String × TestEntry)) (k : String) (v : TestEntry) :
    List (String × TestEntry) :=
  match m with
  | [] => [(k, v)]
  | p :: rest => if p.1 = k then (k, v) :: rest else p :: mapSet rest k v

/-- Contribution of a terminal result's status to the
(passed, failed, skipped) counters, as in the `switch` of `onTestEnd`
(part_002 lines 166-179). -/
def statusCounts (st : TStatus) : Nat × Nat × Nat :=
  match st with
  | TStatus.passed => (1, 0, 0)
  | TStatus.failed => (0, 1, 0)
  | TStatus.timedOut => (0, 1, 0)
  | TStatus.skipped => (0, 0, 1)
  | TStatus.interrupted => (0, 0, 1)

/-- Embedding of `onTestBegin` (part_002 lines 137-146): overwrite the
working entry for the key with the begin-time test data and result shell. -/
def onTestBegin (s : ReporterState) (k : String) (retry retries : Nat)
    (st : TStatus) : ReporterState :=
  { s with tests := mapSet s.tests k ⟨retry, st, retries⟩ }

/-- Embedding of `onTestEnd` (part_002 lines 151-185): when no working entry
exists for the key the call is a no-op; otherwise the stored result is
replaced, and exactly when `result.retry === test.retries` the total counter
and one of the per-status counters are incremented. -/
def onTestEnd (s : ReporterState) (k : String) (retry retries : Nat)
    (st : TStatus) : ReporterState :=
  match mapGet s.tests k with
  | none => s
  | some entry =>
      let s' := { s with
        tests := mapSet s.tests k { entry with resultRetry := retry, resultStatus := st } }
      if retry = retries then
        { s' with
          totalTests := s'.totalTests + 1
          passedTests := s'.passedTests + (statusCounts st).1
          failedTests := s'.failedTests + (statusCounts st).2.1
          skippedTests := s'.skippedTests + (statusCounts st).2.2 }
      else s'

/-- A lifecycle callback delivered to the reporter, with the fields of its
`test` and `result` arguments that the reporter reads: the title-path key,
`result.retry`, `test.retries` and `result.status`. -/
inductive RepEvent
  | testBegin (key : String) (resultRetry : Nat) (testRetries : Nat) (status : TStatus)
  | testEnd (key : String) (resultRetry : Nat) (testRetries : Nat) (status : TStatus)
deriving DecidableEq

/-- Dispatch one lifecycle callback to its handler. -/
def step (s : ReporterState) : RepEvent → ReporterState
  | RepEvent.testBegin k retry retries st => onTestBegin s k retry retries st
  | RepEvent.testEnd k retry retries st => onTestEnd s k retry retries st

/-- Run a sequence of lifecycle callbacks. -/
def runEvents (evs : List RepEvent) (s : ReporterState) : ReporterState :=
  evs.foldl step s

/-- The records selected for transmission by `sendTestResults`
(part_002 lines 241-261): the working entries whose stored result's attempt
index equals the stored test's retry maximum, in map order. -/
def transmittedResults (s : ReporterState) : List (String × TestEntry) :=
  s.tests.filter (fun p => decide (p.2.resultRetry = p.2.testRetries))

/-- The sum of the per-status summary counters. -/
def counterSum (s : ReporterState) : Nat :=
  s.passedTests + s.failedTests + s.skippedTests

/-- Boolean list membership for keys. -/
def memB (k : String) : List String → Bool
  | [] => false
  | x :: xs => decide (k = x) || memB k xs

/-- Well-formedness of a callback sequence relative to a set of
already-begun keys: every test-end callback is preceded by a test-begin
for its key. -/
def covered (ks : List String) : List RepEvent → Bool
  | [] => true
  | RepEvent.testBegin k _ _ _ :: rest => covered (k :: ks) rest
  | RepEvent.testEnd k _ _ _ :: rest => memB k ks && covered ks rest

/-- The keys of the terminal test-end callbacks (those whose attempt index
equals the retry maximum) in a sequence, in order and with multiplicity. -/
def terminalKeys (evs : List RepEvent) : List String :=
  evs.filterMap (fun e =>
    match e with
    | RepEvent.testEnd k retry retries _ => if retry = retries then some k else none
    | RepEvent.testBegin _ _ _ _ => none)

/-- The two callbacks of one observed attempt of a test: the test-begin with
the attempt's result shell, then the test-end with the attempt's outcome.
`p = (attempt index, shell status, end status)`. -/
def attemptPair (k : String) (R : Nat) (p : Nat × TStatus × TStatus) : List RepEvent :=
  [RepEvent.testBegin k p.1 R p.2.1, RepEvent.testEnd k p.1 R p.2.2]

/-- The callback sequence of a list of attempts of one test (key `k`,
configured retry maximum `R`). -/
def retrySequence (k : String) (R : Nat) (ps : List (Nat × TStatus × TStatus)) :
    List RepEvent :=
  ps.flatMap (attemptPair k R)

/-- The working-map entry left behind by a list of attempts, starting from
entry `e`: the last attempt's index and end status, with the stored retry
maximum `R`. -/
def finalEntry (e : TestEntry) (R : Nat) : List (Nat × TStatus × TStatus) → TestEntry
  | [] => e
  | p :: rest => finalEntry ⟨p.1, p.2.2, R⟩ R rest

/-! # Lemmas about the working map -/

theorem mapGet_mapSet_self (m : List (String × TestEntry)) (k : String) (v : TestEntry) :
    mapGet (mapSet m k v) k = some v := by
  induction m with
  | nil => simp [mapSet, mapGet]
  | cons p rest ih =>
      by_cases h : p.1 = k
      · simp [mapSet, mapGet, h]
      · simp [mapSet, mapGet, h, ih]

theorem mapGet_mapSet_ne (m : List (String × TestEntry)) (k x : String) (v : TestEntry)
    (hx : x ≠ k) : mapGet (mapSet m k v) x = mapGet m x := by
  induction m with
  | nil =>
      simp only [mapSet, mapGet]
      rw [if_neg (fun h => hx h.symm)]
  | cons p rest ih =>
      by_cases h : p.1 = k
      · simp only [mapSet, if_pos h, mapGet]
        rw [if_neg (fun hh => hx hh.symm), if_neg (by rw [h]; exact fun hh => hx hh.symm)]
      · simp only [mapSet, if_neg h, mapGet]
        by_cases h2 : p.1 = x
        · rw [if_pos h2, if_pos h2]
        · rw [if_neg h2, if_neg h2, ih]

/-! # Claim C6: a test-end with no prior test-begin is a no-op -/

/-- C6: when a test-end callback arrives for a title-path key with no working
entry, the reporter state is left entirely unchanged — no counters move, no
entry is created, and nothing is raised — even when the callback carries the
terminal attempt index. -/
theorem claimC6 (s : ReporterState) (k : String) (retry retries : Nat) (st : TStatus)
    (h : mapGet s.tests k = none) :
    step s (RepEvent.testEnd k retry retries st) = s := by
  simp [step, onTestEnd, h]

/-- Witness for C6 at a concrete input: a terminal test-end delivered to the
initial state (whose working map is empty) leaves the state unchanged. -/
theorem claimC6_witness :
    step initialState (RepEvent.testEnd "t" 2 2 TStatus.passed) = initialState :=
  claimC6 initialState "t" 2 2 TStatus.passed rfl

/-! # Claim C2: counter sum versus distinct terminal keys -/

theorem counterSum_runEvents (evs : List RepEvent) :
    ∀ (s : ReporterState) (ks : List String),
      covered ks evs = true →
      (∀ x, memB x ks = true → (mapGet s.tests x).isSome = true) →
      counterSum (runEvents evs s) = counterSum s + (terminalKeys evs).length := by
  induction evs with
  | nil => intro s ks _ _; simp [runEvents, terminalKeys, counterSum]
  | cons e rest ih =>
      intro s ks hcov hks
      cases e with
      | testBegin k retry retries st =>
          have hcov' : covered (k :: ks) rest = true := by simpa [covered] using hcov
          have hks' : ∀ x, memB x (k :: ks) = true →
              (mapGet (onTestBegin s k retry retries st).tests x).isSome = true := by
            intro x hx
            simp only [memB, Bool.or_eq_true, decide_eq_true_eq] at hx
            rcases hx with hx | hx
            · subst hx
              simp [onTestBegin, mapGet_mapSet_self]
            · by_cases hxk : x = k
              · subst hxk
                simp [onTestBegin, mapGet_mapSet_self]
              · simp only [onTestBegin]
                rw [mapGet_mapSet_ne _ _ _ _ hxk]
                exact hks x hx
          have hsum : counterSum (onTestBegin s k retry retries st) = counterSum s := by
            simp [onTestBegin, counterSum]
          have := ih (onTestBegin s k retry retries st) (k :: ks) hcov' hks'
          simp only [runEvents, List.foldl_cons] at this ⊢
          simp only [step]
          rw [this, hsum]
          simp [terminalKeys, List.filterMap_cons]
      | testEnd k retry retries st =>
          have hcov1 : memB k ks = true := by
            simp only [covered, Bool.and_eq_true] at hcov
            exact hcov.1
          have hcov' : covered ks rest = true := by
            simp only [covered, Bool.and_eq_true] at hcov
            exact hcov.2
          obtain ⟨entry, hentry⟩ : ∃ entry, mapGet s.tests k = some entry := by
            have := hks k hcov1
            cases hg : mapGet s.tests k with
            | none => rw [hg] at this; simp at this
            | some e => exact ⟨e, rfl⟩
          have htests : (onTestEnd s k retry retries st).tests =
              mapSet s.tests k { entry with resultRetry := retry, resultStatus := st } := by
            by_cases hr : retry = retries <;> simp [onTestEnd, hentry, hr]
          have hsum : counterSum (onTestEnd s k retry retries st) =
              counterSum s + (if retry = retries then 1 else 0) := by
            by_cases hr : retry = retries <;>
              cases st <;> simp [onTestEnd, hentry, hr, counterSum, statusCounts] <;> omega
          have hks' : ∀ x, memB x ks = true →
              (mapGet (onTestEnd s k retry retries st).tests x).isSome = true := by
            intro x hx
            rw [htests]
            by_cases hxk : x = k
            · subst hxk
              simp [mapGet_mapSet_self]
            · rw [mapGet_mapSet_ne _ _ _ _ hxk]
              exact hks x hx
          have := ih (onTestEnd s k retry retries st) ks hcov' hks'
          simp only [runEvents, List.foldl_cons] at this ⊢
          simp only [step]
          rw [this, hsum]
          by_cases hr : retry = retries <;>
            simp [terminalKeys, List.filterMap_cons, hr] <;> omega


/-- C2, counterexample: the claim quantifies over every sequence of lifecycle
callbacks, but a terminal test-end that was never preceded by a test-begin for
its key is dropped by `onTestEnd`, so the counter sum stays 0 while one
distinct title-path key did observe a terminal attempt. -/
theorem claimC2_cex :
    counterSum (runEvents [RepEvent.testEnd "t" 0 0 TStatus.passed] initialState) = 0
    ∧ ((terminalKeys [RepEvent.testEnd "t" 0 0 TStatus.passed]).dedup).length = 1 := by
  constructor
  · rfl
  · rfl

/-- C2, amended: for callback sequences in which every test-end is preceded by
a test-begin for its key and each key observes at most one terminal attempt,
the sum of the passed, failed and skipped counters at run end equals the
number of distinct title-path keys for which a terminal attempt was observed. -/
theorem claimC2_amended (evs : List RepEvent) (h1 : covered [] evs = true)
    (h2 : (terminalKeys evs).Nodup) :
    counterSum (runEvents evs initialState) = ((terminalKeys evs).dedup).length := by
  have h := counterSum_runEvents evs initialState [] h1 (by intro x hx; simp [memB] at hx)
  rw [h, List.dedup_eq_self.mpr h2]
  simp [counterSum, initialState]

/-- Witness for C2 (amended) at a concrete input: one test begun and ended at
its terminal attempt yields counter sum 1 = one distinct terminal key. -/
theorem claimC2_amended_witness :
    counterSum (runEvents [RepEvent.testBegin "t" 0 0 TStatus.passed,
        RepEvent.testEnd "t" 0 0 TStatus.passed] initialState) =
      ((terminalKeys [RepEvent.testBegin "t" 0 0 TStatus.passed,
        RepEvent.testEnd "t" 0 0 TStatus.passed]).dedup).length :=
  claimC2_amended _ (by rfl) (by decide)

/-! # Claim C1: terminal-attempt deduplication for a single key -/

theorem retrySequence_cons (k : String) (R : Nat) (p : Nat × TStatus × TStatus)
    (ps : List (Nat × TStatus × TStatus)) :
    retrySequence k R (p :: ps) =
      RepEvent.testBegin k p.1 R p.2.1 :: RepEvent.testEnd k p.1 R p.2.2 ::
        retrySequence k R ps := by
  simp [retrySequence, attemptPair]

theorem step_attempt_pair (k : String) (R j : Nat) (sh st : TStatus)
    (s : ReporterState) (hs : s.tests = [] ∨ ∃ e, s.tests = [(k, e)]) :
    step (step s (RepEvent.testBegin k j R sh)) (RepEvent.testEnd k j R st) =
      { tests := [(k, ⟨j, st, R⟩)]
        totalTests := s.totalTests + (if j = R then 1 else 0)
        passedTests := s.passedTests + (if j = R then (statusCounts st).1 else 0)
        failedTests := s.failedTests + (if j = R then (statusCounts st).2.1 else 0)
        skippedTests := s.skippedTests + (if j = R then (statusCounts st).2.2 else 0) } := by
  rcases hs with hs | ⟨e, hs⟩ <;>
    by_cases hr : j = R <;>
      simp [step, onTestBegin, onTestEnd, hs, mapSet, mapGet, hr]

theorem runEvents_retrySequence (k : String) (R : Nat) :
    ∀ (ps : List (Nat × TStatus × TStatus)) (s : ReporterState),
      (s.tests = [] ∨ ∃ e, s.tests = [(k, e)]) →
      (runEvents (retrySequence k R ps) s).totalTests =
          s.totalTests + ps.countP (fun p => decide (p.1 = R))
      ∧ (runEvents (retrySequence k R ps) s).passedTests =
          s.passedTests + ps.countP (fun p =>
            decide (p.1 = R) && decide (p.2.2 = TStatus.passed))
      ∧ (runEvents (retrySequence k R ps) s).failedTests =
          s.failedTests + ps.countP (fun p =>
            decide (p.1 = R) &&
              (decide (p.2.2 = TStatus.failed) || decide (p.2.2 = TStatus.timedOut)))
      ∧ (runEvents (retrySequence k R ps) s).skippedTests =
          s.skippedTests + ps.countP (fun p =>
            decide (p.1 = R) &&
              (decide (p.2.2 = TStatus.skipped) || decide (p.2.2 = TStatus.interrupted)))
      ∧ (runEvents (retrySequence k R ps) s).tests =
          (match ps with
           | [] => s.tests
           | p :: rest => [(k, finalEntry ⟨p.1, p.2.2, R⟩ R rest)]) := by
  intro ps
  induction ps with
  | nil =>
      intro s _
      simp [retrySequence, runEvents]
  | cons p rest ih =>
      intro s hs
      rw [retrySequence_cons]
      have hstep := step_attempt_pair k R p.1 p.2.1 p.2.2 s hs
      have hrun : runEvents
          (RepEvent.testBegin k p.1 R p.2.1 :: RepEvent.testEnd k p.1 R p.2.2 ::
            retrySequence k R rest) s =
          runEvents (retrySequence k R rest)
            (step (step s (RepEvent.testBegin k p.1 R p.2.1))
              (RepEvent.testEnd k p.1 R p.2.2)) := rfl
      rw [hrun]
      have hs2 : (step (step s (RepEvent.testBegin k p.1 R p.2.1))
          (RepEvent.testEnd k p.1 R p.2.2)).tests = [] ∨
          ∃ e, (step (step s (RepEvent.testBegin k p.1 R p.2.1))
            (RepEvent.testEnd k p.1 R p.2.2)).tests = [(k, e)] := by
        rw [hstep]
        exact Or.inr ⟨⟨p.1, p.2.2, R⟩, rfl⟩
      obtain ⟨h1, h2, h3, h4, h5⟩ := ih _ hs2
      refine ⟨?_, ?_, ?_, ?_, ?_⟩
      · rw [h1, hstep]
        simp only [List.countP_cons]
        by_cases hr : p.1 = R <;> simp [hr] <;> omega
      · rw [h2, hstep]
        simp only [List.countP_cons]
        by_cases hr : p.1 = R <;> cases hst : p.2.2 <;>
          simp [hr, hst, statusCounts] <;> omega
      · rw [h3, hstep]
        simp only [List.countP_cons]
        by_cases hr : p.1 = R <;> cases hst : p.2.2 <;>
          simp [hr, hst, statusCounts] <;> omega
      · rw [h4, hstep]
        simp only [List.countP_cons]
        by_cases hr : p.1 = R <;> cases hst : p.2.2 <;>
          simp [hr, hst, statusCounts] <;> omega
      · rw [h5]
        cases rest with
        | nil => simp [hstep, finalEntry]
        | cons q rest2 => simp [finalEntry]

theorem finalEntry_eq_getLast (R : Nat) :
    ∀ (ps : List (Nat × TStatus × TStatus)) (e : TestEntry),
      finalEntry e R ps = (match ps.getLast? with
        | none => e
        | some p => ⟨p.1, p.2.2, R⟩) := by
  intro ps
  induction ps with
  | nil => intro e; rfl
  | cons p rest ih =>
      intro e
      cases rest with
      | nil => simp [finalEntry]
      | cons q rest2 =>
          rw [show finalEntry e R (p :: q :: rest2) =
                finalEntry ⟨p.1, p.2.2, R⟩ R (q :: rest2) from rfl]
          rw [ih ⟨p.1, p.2.2, R⟩]
          rw [List.getLast?_cons_cons]
          rw [List.getLast?_eq_getLast (q :: rest2) (by simp)]

/-- C1: over any sequence of test-begin/test-end pairs for one title-path key
(each attempt `p` carrying its index `p.1`, shell status and end status, with
configured retry maximum `R`), exactly the pairs whose attempt index equals
`R` increment the summary counters, and the transmission filter of
`sendTestResults` keeps at most the last pair's record, and only when that
record's attempt index equals `R`; all earlier attempts are overwritten in
the working map and never transmitted. -/
theorem claimC1 (k : String) (R : Nat) (ps : List (Nat × TStatus × TStatus)) :
    (runEvents (retrySequence k R ps) initialState).totalTests =
        ps.countP (fun p => decide (p.1 = R))
    ∧ (runEvents (retrySequence k R ps) initialState).passedTests =
        ps.countP (fun p => decide (p.1 = R) && decide (p.2.2 = TStatus.passed))
    ∧ (runEvents (retrySequence k R ps) initialState).failedTests =
        ps.countP (fun p => decide (p.1 = R) &&
          (decide (p.2.2 = TStatus.failed) || decide (p.2.2 = TStatus.timedOut)))
    ∧ (runEvents (retrySequence k R ps) initialState).skippedTests =
        ps.countP (fun p => decide (p.1 = R) &&
          (decide (p.2.2 = TStatus.skipped) || decide (p.2.2 = TStatus.interrupted)))
    ∧ transmittedResults (runEvents (retrySequence k R ps) initialState) =
        (match ps.getLast? with
         | none => []
         | some p => if p.1 = R then [(k, ⟨p.1, p.2.2, R⟩)] else []) := by
  obtain ⟨h1, h2, h3, h4, h5⟩ :=
    runEvents_retrySequence k R ps initialState (Or.inl rfl)
  refine ⟨by simpa [initialState] using h1, by simpa [initialState] using h2,
    by simpa [initialState] using h3, by simpa [initialState] using h4, ?_⟩
  cases ps with
  | nil =>
      simp only [transmittedResults, h5]
      rfl
  | cons p rest =>
      simp only [transmittedResults, h5]
      rw [finalEntry_eq_getLast]
      cases rest with
      | nil =>
          simp only [List.getLast?_singleton]
          by_cases hr : p.1 = R <;> simp [hr]
      | cons q rest2 =>
          rw [List.getLast?_cons_cons]
          have hne : (q :: rest2: List (Nat × TStatus × TStatus)) ≠ [] := by simp
          rw [List.getLast?_eq_getLast _ hne]
          by_cases hr : ((q :: rest2).getLast hne).1 = R <;> simp [hr]

/-! # Claims C3 and C4: the retry loop of the transport client -/


theorem requestGo_client_stop {α : Type} (outcomes : Nat → Except ReqError α) (m : Nat) :
    ∀ (n a : Nat) (le : Option ReqError) (j : Nat) (e : ReqError),
      j - a = n → a ≤ j → j < m →
      (∀ i, a ≤ i → i < j → ∃ e', outcomes i = Except.error e' ∧ isClientError e' = false) →
      outcomes j = Except.error e → isClientError e = true →
      (requestGo outcomes m a le).1 = Except.error e ∧
        (requestGo outcomes m a le).2.1 = j - a + 1 := by
  intro n
  induction n with
  | zero =>
      intro a le j e hn ha hj hpre he hcl
      have haj : a = j := by omega
      subst haj
      rw [requestGo.eq_def, dif_pos (by omega : a < m), he]
      simp [hcl]
  | succ n ihn =>
      intro a le j e hn ha hj hpre he hcl
      obtain ⟨e', he', hcl'⟩ := hpre a (le_refl a) (by omega)
      have ihr := ihn (a + 1) (some e') j e (by omega) (by omega) hj
        (fun i hi1 hi2 => hpre i (by omega) hi2) he hcl
      rw [requestGo.eq_def, dif_pos (by omega : a < m), he']
      simp only [hcl', Bool.false_eq_true, if_false, ite_false]
      constructor
      · exact ihr.1
      · show (requestGo outcomes m (a + 1) (some e')).2.1 + 1 = j - a + 1
        rw [ihr.2]
        omega

theorem requestGo_all_fail {α : Type} (outcomes : Nat → Except ReqError α) (m : Nat) :
    ∀ (n a : Nat) (le : Option ReqError),
      m - a = n + 1 → a < m →
      (∀ i, a ≤ i → i < m → ∃ e, outcomes i = Except.error e ∧ isClientError e = false) →
      ∃ e, outcomes (m - 1) = Except.error e ∧
        (requestGo outcomes m a le).1 = Except.error e ∧
        (requestGo outcomes m a le).2.1 = m - a := by
  intro n
  induction n with
  | zero =>
      intro a le hn ha hpre
      have haj : a = m - 1 := by omega
      obtain ⟨e, he, hcl⟩ := hpre a (le_refl a) ha
      refine ⟨e, by rw [haj] at he; exact he, ?_, ?_⟩
      · rw [requestGo.eq_def, dif_pos ha, he]
        simp only [hcl, Bool.false_eq_true, if_false, ite_false]
        show (requestGo outcomes m (a + 1) (some e)).1 = Except.error e
        rw [requestGo.eq_def, dif_neg (by omega : ¬ a + 1 < m)]
        simp [requestFail]
      · rw [requestGo.eq_def, dif_pos ha, he]
        simp only [hcl, Bool.false_eq_true, if_false, ite_false]
        show (requestGo outcomes m (a + 1) (some e)).2.1 + 1 = m - a
        rw [requestGo.eq_def, dif_neg (by omega : ¬ a + 1 < m)]
        show 0 + 1 = m - a
        omega
  | succ n ihn =>
      intro a le hn ha hpre
      obtain ⟨e', he', hcl'⟩ := hpre a (le_refl a) ha
      obtain ⟨e, he, h1, h2⟩ := ihn (a + 1) (some e') (by omega) (by omega)
        (fun i hi1 hi2 => hpre i (by omega) hi2)
      refine ⟨e, he, ?_, ?_⟩
      · rw [requestGo.eq_def, dif_pos ha, he']
        simp only [hcl', Bool.false_eq_true, if_false, ite_false]
        exact h1
      · rw [requestGo.eq_def, dif_pos ha, he']
        simp only [hcl', Bool.false_eq_true, if_false, ite_false]
        show (requestGo outcomes m (a + 1) (some e')).2.1 + 1 = m - a
        rw [h2]
        omega

theorem requestGo_delays {α : Type} (outcomes : Nat → Except ReqError α) (m : Nat) :
    ∀ (n a : Nat) (le : Option ReqError), m - a = n → 1 ≤ a →
      (∀ i, a ≤ i → i < m → ∃ e, outcomes i = Except.error e ∧ isClientError e = false) →
      (requestGo outcomes m a le).2.2 = (List.range' a (m - a)).map backoffDelay := by
  intro n
  induction n with
  | zero =>
      intro a le hn ha hpre
      rw [requestGo.eq_def, dif_neg (by omega : ¬ a < m), hn]
      simp
  | succ n ihn =>
      intro a le hn ha hpre
      have ham : a < m := by omega
      obtain ⟨e', he', hcl'⟩ := hpre a (le_refl a) ham
      have ihr := ihn (a + 1) (some e') (by omega) (by omega)
        (fun i hi1 hi2 => hpre i (by omega) hi2)
      rw [requestGo.eq_def, dif_pos ham, he']
      simp only [hcl', Bool.false_eq_true, if_false, ite_false]
      show (if 0 < a then [backoffDelay a] else []) ++
          (requestGo outcomes m (a + 1) (some e')).2.2 =
        (List.range' a (m - a)).map backoffDelay
      rw [if_pos (by omega : 0 < a), ihr,
        show m - a = (m - (a + 1)) + 1 by omega, List.range'_succ]
      simp

/-- C3: for every remote call, a failure carrying an HTTP status code in
[400, 500) is propagated immediately — the failing attempt is never retried,
so a 4xx on attempt `j` ends the call after exactly `j + 1` attempts — while
a run in which every attempt fails with a retryable error (5xx, connection
error, timeout) performs exactly `maxRetries` attempts and surfaces the last
error encountered. -/
theorem claimC3 {α : Type} (outcomes : Nat → Except ReqError α) (m : Nat) (hm : 1 ≤ m) :
    (∀ (j : Nat) (e : ReqError), j < m →
        (∀ i, i < j → ∃ e', outcomes i = Except.error e' ∧ isClientError e' = false) →
        outcomes j = Except.error e → isClientError e = true →
        (request outcomes m).1 = Except.error e ∧ (request outcomes m).2.1 = j + 1)
    ∧ ((∀ i, i < m → ∃ e, outcomes i = Except.error e ∧ isClientError e = false) →
        ∃ e, outcomes (m - 1) = Except.error e ∧
          (request outcomes m).1 = Except.error e ∧ (request outcomes m).2.1 = m) := by
  constructor
  · intro j e hj hpre he hcl
    have h := requestGo_client_stop outcomes m j 0 none j e (by omega) (by omega) hj
      (fun i _ hi => hpre i hi) he hcl
    exact ⟨h.1, h.2.trans (by omega)⟩
  · intro hpre
    obtain ⟨e, he, h1, h2⟩ := requestGo_all_fail outcomes m (m - 1) 0 none (by omega)
      (by omega) (fun i _ hi => hpre i hi)
    exact ⟨e, he, h1, h2.trans (by omega)⟩

/-- Witness for C3 at a concrete input: a call whose first attempt fails with
HTTP 404 ends after exactly one attempt with that error surfaced. -/
theorem claimC3_witness :
    (request (fun _ => Except.error (ReqError.apiError 404 "nf")) 3 (α := Nat)).1 =
        Except.error (ReqError.apiError 404 "nf")
    ∧ (request (fun _ => Except.error (ReqError.apiError 404 "nf")) 3 (α := Nat)).2.1 = 1 :=
  (claimC3 (fun _ => Except.error (ReqError.apiError 404 "nf")) 3 (by omega)).1 0
    (ReqError.apiError 404 "nf") (by omega)
    (fun i hi => absurd hi (Nat.not_lt_zero i)) rfl (by decide)

/-- C4: the backoff delay before retry attempt `k` is
`min(1000 * 2 ^ k, 10000)` milliseconds; the delay sequence is non-decreasing
in the attempt index and never exceeds 10000 ms, and a run of `m` attempts
that all fail with retryable errors sleeps exactly the delays of attempts
`1 … m - 1` in order. -/
theorem claimC4 :
    (∀ k, 1 ≤ k → backoffDelay k = min (1000 * 2 ^ k) 10000)
    ∧ (∀ k k', k ≤ k' → backoffDelay k ≤ backoffDelay k')
    ∧ (∀ k, backoffDelay k ≤ 10000)
    ∧ (∀ (m : Nat) (outcomes : Nat → Except ReqError Nat), 1 ≤ m →
        (∀ i, i < m → ∃ e, outcomes i = Except.error e ∧ isClientError e = false) →
        (request outcomes m).2.2 = (List.range' 1 (m - 1)).map backoffDelay) := by
  refine ⟨fun k _ => rfl, ?_, fun k => Nat.min_le_right _ _, ?_⟩
  · intro k k' hk
    unfold backoffDelay
    exact min_le_min (Nat.mul_le_mul_left 1000
      (Nat.pow_le_pow_right (by omega) hk)) (le_refl 10000)
  · intro m outcomes hm hpre
    obtain ⟨e0, he0, hcl0⟩ := hpre 0 hm
    have hd := requestGo_delays outcomes m (m - 1) 1 (some e0) (by omega) (le_refl 1)
      (fun i hi1 hi2 => hpre i hi2)
    unfold request
    rw [requestGo.eq_def, dif_pos (by omega : 0 < m), he0]
    simp only [hcl0, Bool.false_eq_true, if_false, ite_false]
    show (if 0 < 0 then [backoffDelay 0] else []) ++
        (requestGo outcomes m (0 + 1) (some e0)).2.2 =
      (List.range' 1 (m - 1)).map backoffDelay
    rw [if_neg (by omega : ¬ (0:Nat) < 0), List.nil_append]
    rw [show (0 + 1 : Nat) = 1 from rfl]
    rw [hd]

/-- Witness for C4 at a concrete input: three attempts that all time out
sleep 2000 ms and then 4000 ms, and the delay bound holds at 1 ≤ 2. -/
theorem claimC4_witness :
    (request (fun _ => Except.error (ReqError.netError "timeout")) 3 (α := Nat)).2.2 =
        [2000, 4000]
    ∧ backoffDelay 1 ≤ backoffDelay 2 := by
  constructor
  · have h := claimC4.2.2.2 3 (fun _ => Except.error (ReqError.netError "timeout"))
      (by omega) (fun i _ => ⟨ReqError.netError "timeout", rfl, rfl⟩)
    rw [h]
    decide
  · exact claimC4.2.1 1 2 (by omega)

/-! # Evaluation lemmas for the ANSI stripping passes -/

theorem stripEsc_cons_ne (c : Char) (rest : List Char) (hc : c ≠ '\x1b') :
    stripEsc (c :: rest) = c :: stripEsc rest :=
  stripEsc.eq_3 c rest (fun _ h1 _ => hc h1)

theorem stripEsc_no_esc (l : List Char) (h : ∀ c ∈ l, c ≠ '\x1b') :
    stripEsc l = l := by
  induction l with
  | nil => exact stripEsc.eq_1
  | cons c rest ih =>
      rw [stripEsc_cons_ne c rest (h c (List.mem_cons_self c rest)),
        ih (fun x hx => h x (List.mem_cons_of_mem c hx))]

theorem stripEsc_clean_append (l1 l2 : List Char) (h : ∀ c ∈ l1, c ≠ '\x1b') :
    stripEsc (l1 ++ l2) = l1 ++ stripEsc l2 := by
  induction l1 with
  | nil => simp
  | cons c rest ih =>
      rw [List.cons_append, stripEsc_cons_ne c _ (h c (List.mem_cons_self c rest)),
        ih (fun x hx => h x (List.mem_cons_of_mem c hx))]
      rfl

theorem stripEsc_match_step (rest2 : List Char) (d : Char) (rest4 : List Char)
    (h : rest2.dropWhile ansiParamChar = d :: rest4) (hd : d.isAlpha = true) :
    stripEsc ('\x1b' :: '[' :: rest2) = stripEsc rest4 := by
  simp only [stripEsc]
  split
  · next d' rest4' h' =>
      rw [h] at h'
      injection h' with h1 h2
      subst h1
      subst h2
      rw [if_pos hd]
  · next h' =>
      rw [h] at h'
      exact absurd h' (by simp)

theorem stripBr_no_bracket (l : List Char) (h : ∀ c ∈ l, c ≠ '[') :
    stripBr l = l := by
  induction l with
  | nil => exact stripBr.eq_1
  | cons c rest ih =>
      rw [stripBr.eq_3 c rest (fun h1 => h c (List.mem_cons_self c rest) h1),
        ih (fun x hx => h x (List.mem_cons_of_mem c hx))]

theorem stripSemi_no_bracket (l : List Char) (h : ∀ c ∈ l, c ≠ '[') :
    stripSemi l = l := by
  induction l with
  | nil => exact stripSemi.eq_1
  | cons c rest ih =>
      rw [stripSemi.eq_3 c rest (fun h1 => h c (List.mem_cons_self c rest) h1),
        ih (fun x hx => h x (List.mem_cons_of_mem c hx))]

theorem stripAnsiStr_clean (s : String)
    (h1 : ∀ c ∈ s.toList, c ≠ '\x1b') (h2 : ∀ c ∈ s.toList, c ≠ '[')
    (h3 : trimChars s.toList = s.toList) :
    stripAnsiStr s = s := by
  unfold stripAnsiStr stripPasses
  rw [stripEsc_no_esc _ h1, stripBr_no_bracket _ h2, stripSemi_no_bracket _ h2, h3]
  cases s
  rfl

theorem stripAnsi_getD (url : String) :
    (stripAnsi (some url)).getD "" = stripAnsiStr url := by
  by_cases hu : url = ""
  · subst hu
    show ("" : String) = stripAnsiStr ""
    rw [stripAnsiStr_clean "" (by decide) (by decide) rfl]
  · simp [stripAnsi, hu]

theorem sanitizeUrl_qastudio :
    sanitizeUrl "https://qastudio.dev/api" = Except.ok "https://qastudio.dev/api" := by
  unfold sanitizeUrl
  rw [stripAnsi_getD,
    stripAnsiStr_clean "https://qastudio.dev/api" (by decide) (by decide) rfl]
  rw [if_pos (by decide : urlCanParse "https://qastudio.dev/api" = true)]

/-! # Claims C5 and C10: `batchArray` -/

theorem chunksPos_flatten {α : Type} (m : Nat) (l : List α) :
    (chunksPos m l).flatten = l := by
  have H : ∀ (n : Nat) (l : List α), l.length ≤ n → (chunksPos m l).flatten = l := by
    intro n
    induction n with
    | zero =>
        intro l hl
        rw [List.length_eq_zero.mp (Nat.le_zero.mp hl)]
        simp [chunksPos]
    | succ n ih =>
        intro l hl
        cases l with
        | nil => simp [chunksPos]
        | cons x xs =>
            rw [chunksPos, List.flatten_cons]
            rw [ih (xs.drop m) (by simp at hl ⊢; omega)]
            rw [List.take_succ_cons]
            simp [List.take_append_drop]
  exact H l.length l (le_refl _)

theorem chunksPos_sizes {α : Type} (m : Nat) (l : List α) :
    ∀ b ∈ chunksPos m l, b.length ≤ m + 1 := by
  have H : ∀ (n : Nat) (l : List α), l.length ≤ n →
      ∀ b ∈ chunksPos m l, b.length ≤ m + 1 := by
    intro n
    induction n with
    | zero =>
        intro l hl
        rw [List.length_eq_zero.mp (Nat.le_zero.mp hl)]
        simp [chunksPos]
    | succ n ih =>
        intro l hl
        cases l with
        | nil => simp [chunksPos]
        | cons x xs =>
            rw [chunksPos]
            intro b hb
            rcases List.mem_cons.mp hb with hb | hb
            · subst hb
              exact List.length_take_le _ _
            · exact ih (xs.drop m) (by simp at hl ⊢; omega) b hb
  exact H l.length l (le_refl _)

theorem chunksPos_count {α : Type} (m : Nat) (l : List α) :
    (chunksPos m l).length = (l.length + m) / (m + 1) := by
  have H : ∀ (n : Nat) (l : List α), l.length ≤ n →
      (chunksPos m l).length = (l.length + m) / (m + 1) := by
    intro n
    induction n with
    | zero =>
        intro l hl
        rw [List.length_eq_zero.mp (Nat.le_zero.mp hl)]
        simp [chunksPos, Nat.div_eq_of_lt (by omega : m < m + 1)]
    | succ n ih =>
        intro l hl
        cases l with
        | nil => simp [chunksPos, Nat.div_eq_of_lt (by omega : m < m + 1)]
        | cons x xs =>
            rw [chunksPos, List.length_cons]
            rw [ih (xs.drop m) (by simp at hl ⊢; omega)]
            simp only [List.length_drop, List.length_cons]
            have h1 : xs.length + 1 + m = (xs.length + m - m) + (m + 1) := by omega
            rw [h1, Nat.add_div_right _ (by omega : 0 < m + 1)]
            by_cases hc : m ≤ xs.length
            · have h2 : xs.length - m + m = xs.length + m - m := by omega
              rw [h2]
            · have h2 : xs.length - m + m = m := by omega
              have h3 : xs.length + m - m = xs.length := by omega
              rw [h2, h3, Nat.div_eq_of_lt (by omega : m < m + 1),
                Nat.div_eq_of_lt (by omega : xs.length < m + 1)]
  exact H l.length l (le_refl _)

theorem batchLoop_eq_chunks {α : Type} (l : List α) (n : Nat) (hn : 1 ≤ n) :
    ∀ (fuel i : Nat), l.length - i ≤ fuel →
      batchLoop l (n : Int) fuel (i : Int) = some (chunksPos (n - 1) (l.drop i)) := by
  intro fuel
  induction fuel with
  | zero =>
      intro i hi
      rw [batchLoop]
      rw [if_neg (by exact_mod_cast (by omega : ¬ i < l.length))]
      rw [List.drop_eq_nil_of_le (by omega : l.length ≤ i)]
      rw [chunksPos]
  | succ fuel ih =>
      intro i hi
      by_cases hlt : i < l.length
      · rw [batchLoop]
        rw [if_pos (by exact_mod_cast hlt)]
        have hcast : (i : Int) + (n : Int) = ((i + n : Nat) : Int) := by push_cast; ring
        rw [hcast]
        rw [ih (i + n) (by omega)]
        simp only [Option.map_some']
        congr 1
        obtain ⟨x, xs, hxs⟩ : ∃ x xs, l.drop i = x :: xs := by
          cases hd : l.drop i with
          | nil =>
              exfalso
              have hlen : (l.drop i).length = 0 := by rw [hd]; rfl
              rw [List.length_drop] at hlen
              omega
          | cons x xs => exact ⟨x, xs, rfl⟩
        rw [hxs, chunksPos]
        have hslice : jsSlice l (i : Int) (((i + n : Nat) : Int)) = (l.drop i).take n := by
          simp only [jsSlice]
          rw [if_neg (by omega : ¬ (i : Int) < 0),
            if_neg (by omega : ¬ (((i + n : Nat) : Int)) < 0)]
          have hs : min (i : Int) ((l.length : Nat) : Int) = (i : Int) := by omega
          rw [hs]
          have he : ((min (((i + n : Nat) : Int)) ((l.length : Nat) : Int)) - (i : Int)).toNat
              = min (i + n) l.length - i := by omega
          rw [show ((i : Int)).toNat = i from rfl, he]
          apply List.take_eq_take.mpr
          rw [List.length_drop]
          omega
        rw [hslice, hxs]
        have hdrop : xs.drop (n - 1) = l.drop (i + n) := by
          have h1 : (x :: xs).drop n = xs.drop (n - 1) := by
            rw [show n = (n - 1) + 1 by omega]
            simp
          rw [← h1, ← hxs, List.drop_drop]
        rw [hdrop]
        rw [show (n - 1) + 1 = n by omega]
      · rw [batchLoop]
        rw [if_neg (by exact_mod_cast hlt)]
        rw [List.drop_eq_nil_of_le (by omega : l.length ≤ i)]
        rw [chunksPos]

theorem batchLoop_diverges {α : Type} (l : List α) (hl : l ≠ []) (size : Int)
    (hs : size ≤ 0) :
    ∀ (fuel : Nat) (i : Int), i ≤ 0 → batchLoop l size fuel i = none := by
  have hlen : 0 < l.length := List.length_pos.mpr hl
  intro fuel
  induction fuel with
  | zero =>
      intro i hi
      rw [batchLoop]
      rw [if_pos (by push_cast; omega)]
  | succ fuel ih =>
      intro i hi
      rw [batchLoop]
      rw [if_pos (by push_cast; omega)]
      rw [ih (i + size) (by omega)]
      rfl

/-- C5, counterexample: the claim quantifies over every batch size, but with
batch size 0 the loop of `batchArray` never advances its index, so no list of
batches is ever returned (the step budget — here the array length — runs out
with the loop still running) even on a one-element array. -/
theorem claimC5_cex : batchArray ([1] : List Nat) 0 = none := rfl

/-- C5, amended: for every array and every batch size n ≥ 1, `batchArray`
returns exactly ⌈len/n⌉ batches, each of size at most n, whose concatenation
in order is the original array. -/
theorem claimC5_amended {α : Type} (l : List α) (n : Nat) (hn : 1 ≤ n) :
    ∃ bs, batchArray l ((n : Nat) : Int) = some bs
      ∧ bs.length = (l.length + n - 1) / n
      ∧ (∀ b ∈ bs, b.length ≤ n)
      ∧ bs.flatten = l := by
  refine ⟨chunksPos (n - 1) l, ?_, ?_, ?_, ?_⟩
  · have h := batchLoop_eq_chunks l n hn l.length 0 (by omega)
    unfold batchArray
    rw [show ((0 : Nat) : Int) = (0 : Int) from rfl] at h
    rw [h]
    rw [List.drop_zero]
  · rw [chunksPos_count]
    congr 1 <;> omega
  · intro b hb
    have := chunksPos_sizes (n - 1) l b hb
    omega
  · exact chunksPos_flatten _ _

/-- Witness for C5 (amended) at a concrete input: batching five elements in
twos yields three batches of size at most two that concatenate to the input. -/
theorem claimC5_amended_witness :
    ∃ bs, batchArray ([1, 2, 3, 4, 5] : List Nat) ((2 : Nat) : Int) = some bs
      ∧ bs.length = (([1, 2, 3, 4, 5] : List Nat).length + 2 - 1) / 2
      ∧ (∀ b ∈ bs, b.length ≤ 2)
      ∧ bs.flatten = [1, 2, 3, 4, 5] :=
  claimC5_amended [1, 2, 3, 4, 5] 2 (by omega)

/-- C10: `batchArray` terminates only for batch sizes n ≥ 1.  For every
non-positive size and non-empty array the loop index stays non-positive and
never reaches the array length, so no step budget completes the loop; for
every n ≥ 1 the loop completes within the budget.  Moreover option
validation accepts a configuration with `batchSize` 0 — no caller checks
the batch size — and the reporter constructor resolves exactly that value. -/
theorem claimC10 :
    (∀ (l : List Nat) (size : Int), l ≠ [] → size ≤ 0 →
        ∀ fuel, batchLoop l size fuel 0 = none)
    ∧ (∀ (l : List Nat) (n : Nat), 1 ≤ n → (batchArray l ((n : Nat) : Int)).isSome = true)
    ∧ (∃ o : ReporterOptions, validateOptions o = Except.ok () ∧ resolvedBatchSize o = 0) := by
  refine ⟨?_, ?_, ?_⟩
  · intro l size hl hs fuel
    exact batchLoop_diverges l hl size hs fuel 0 (by omega)
  · intro l n hn
    have h := batchLoop_eq_chunks l n hn l.length 0 (by omega)
    unfold batchArray
    rw [show ((0 : Nat) : Int) = (0 : Int) from rfl] at h
    rw [h]
    rfl
  · refine ⟨⟨some "https://qastudio.dev/api", some "key", some "proj", some 0⟩, ?_, rfl⟩
    show (match sanitizeUrl "https://qastudio.dev/api" with
          | Except.ok _ => Except.ok ()
          | Except.error e => Except.error e) = Except.ok ()
    rw [sanitizeUrl_qastudio]

/-- Witness for C10 at a concrete input: a single-element array with batch
size −1 makes no progress under a budget of five steps, while batch size 1
returns a result. -/
theorem claimC10_witness :
    batchLoop ([7] : List Nat) (-1) 5 0 = none
    ∧ (batchArray ([7] : List Nat) ((1 : Nat) : Int)).isSome = true :=
  ⟨claimC10.1 [7] (-1) (by simp) (by omega) 5, claimC10.2.1 [7] 1 (by omega)⟩

/-! # Claim C7: attachment classification precedence -/

theorem strStarts_video_not_image (s : String) (h : strStarts s "video/" = true) :
    strStarts s "image/" = false := by
  unfold strStarts at h ⊢
  rw [show ("video/" : String).toList = ['v', 'i', 'd', 'e', 'o', '/'] from rfl] at h
  rw [show ("image/" : String).toList = ['i', 'm', 'a', 'g', 'e', '/'] from rfl]
  cases hs : s.toList with
  | nil => rw [hs] at h; simp [charsLead] at h
  | cons c cs =>
      rw [hs] at h
      simp only [charsLead, Bool.and_eq_true, decide_eq_true_eq] at h
      rw [show c = 'v' from h.1.symm]
      rw [show charsLead ['i', 'm', 'a', 'g', 'e', '/'] ('v' :: cs) =
          (decide ('i' = 'v') && charsLead ['m', 'a', 'g', 'e', '/'] cs) from rfl]
      rw [show (decide ('i' = 'v')) = false from by decide]
      simp

/-- C7, counterexample: an artifact whose declared content type starts with
`video/` but whose name contains `screenshot` is classified as a screenshot,
because the first branch of `determineAttachmentType` tests the name
substring together with the `image/` prefix — the name fallback is not
deferred until all content-type prefixes have failed. -/
theorem claimC7_cex :
    strStarts "video/mp4" "video/" = true
    ∧ determineAttachmentType "screenshot" "video/mp4" = AttachmentType.screenshot
    ∧ AttachmentType.screenshot ≠ AttachmentType.video := by
  refine ⟨by decide, by decide, by decide⟩

/-- C7, amended: classification proceeds through three ordered rules, each
combining a content-type prefix with a name substring: `image/*` content
type always yields screenshot; `video/*` content type yields video provided
the lower-cased name does not contain `screenshot`; and when neither prefix
matches, the kind is decided purely by the case-insensitive name substrings
`screenshot`, `video`, `trace`, in that order, with `other` as default. -/
theorem claimC7_amended (name contentType : String) :
    (strStarts contentType "image/" = true →
        determineAttachmentType name contentType = AttachmentType.screenshot)
    ∧ (strStarts contentType "video/" = true →
        strContains (strToLower name) "screenshot" = false →
        determineAttachmentType name contentType = AttachmentType.video)
    ∧ (strStarts contentType "image/" = false →
        strStarts contentType "video/" = false →
        determineAttachmentType name contentType =
          (if strContains (strToLower name) "screenshot" then AttachmentType.screenshot
           else if strContains (strToLower name) "video" then AttachmentType.video
           else if strContains (strToLower name) "trace" then AttachmentType.trace
           else AttachmentType.other)) := by
  refine ⟨?_, ?_, ?_⟩
  · intro h
    simp [determineAttachmentType, h]
  · intro hv hscr
    have himg := strStarts_video_not_image contentType hv
    simp [determineAttachmentType, himg, hscr, hv]
  · intro h1 h2
    simp [determineAttachmentType, h1, h2]

/-- Witness for C7 (amended) at a concrete input: a `video/webm` artifact
whose name does not mention screenshots is classified as video. -/
theorem claimC7_amended_witness :
    determineAttachmentType "page.png" "video/webm" = AttachmentType.video :=
  (claimC7_amended "page.png" "video/webm").2.1 (by decide) (by decide)

/-! # Claim C8: test-case identity extraction -/

theorem find1_testCaseId (pre post : List Annot) (a : Annot)
    (hpre : ∀ b ∈ pre, b.type ≠ "testCaseId") (ha : a.type = "testCaseId") :
    (pre ++ a :: post).find? (fun x => decide (x.type = "testCaseId")) = some a := by
  induction pre with
  | nil =>
      simp only [List.nil_append]
      rw [List.find?_cons_of_pos _ (by simp [ha])]
  | cons b rest ih =>
      have hb : b.type ≠ "testCaseId" := hpre b (List.mem_cons_self b rest)
      rw [List.cons_append, List.find?_cons_of_neg _ (by simp [hb])]
      exact ih (fun x hx => hpre x (List.mem_cons_of_mem b hx))

/-- C8, counterexample: only the first annotation of type `testCaseId` is
consulted.  When that first annotation carries an empty description, the code
falls back to the title token even though a later `testCaseId` annotation has
a non-empty description — contradicting the claim that any such annotation
wins over the title. -/
theorem claimC8_cex :
    (Annot.mk "testCaseId" (some "QA-999")) ∈
        [Annot.mk "testCaseId" (some ""), Annot.mk "testCaseId" (some "QA-999")]
    ∧ ("QA-999" : String) ≠ ""
    ∧ extractTestCaseId
        [Annot.mk "testCaseId" (some ""), Annot.mk "testCaseId" (some "QA-999")]
        "[QA-123] login works" = some "QA-123"
    ∧ some "QA-123" ≠ some "QA-999" := by
  refine ⟨by decide, by decide, by decide, by decide⟩

/-- C8, amended: the FIRST annotation of type `testCaseId` decides — when its
description is present and non-empty it is returned (winning over any title
token); when it is absent or empty, or when no `testCaseId` annotation
exists, the bracketed uppercase-letters-hyphen-digits token at the start of
the title is returned, and the result is absent when that pattern fails
too. -/
theorem claimC8_amended (anns : List Annot) (title : String) :
    (∀ (pre post : List Annot) (a : Annot),
        anns = pre ++ a :: post →
        (∀ b ∈ pre, b.type ≠ "testCaseId") →
        a.type = "testCaseId" →
        ((∀ d, a.description = some d → d ≠ "" →
            extractTestCaseId anns title = some d)
          ∧ (a.description = none → extractTestCaseId anns title = titleCaseId title)
          ∧ (a.description = some "" →
              extractTestCaseId anns title = titleCaseId title)))
    ∧ ((∀ a ∈ anns, a.type ≠ "testCaseId") →
        extractTestCaseId anns title = titleCaseId title) := by
  constructor
  · rintro pre post a rfl hpre ha
    have hf := find1_testCaseId pre post a hpre ha
    refine ⟨?_, ?_, ?_⟩
    · intro d hd hne
      simp [extractTestCaseId, hf, hd, hne]
    · intro hd
      simp [extractTestCaseId, hf, hd]
    · intro hd
      simp [extractTestCaseId, hf, hd]
  · intro h
    have hf : anns.find? (fun x => decide (x.type = "testCaseId")) = none := by
      rw [List.find?_eq_none]
      intro x hx
      simp [h x hx]
    simp [extractTestCaseId, hf]

/-- Witness for C8 (amended) at concrete inputs: the spec's example — the
annotation value `QA-999` wins over the title token `QA-123` — and the title
fallback extracting `QA-123` when no annotation is present. -/
theorem claimC8_amended_witness :
    extractTestCaseId [Annot.mk "testCaseId" (some "QA-999")]
        "[QA-123] login works" = some "QA-999"
    ∧ extractTestCaseId [] "[QA-123] login works" = some "QA-123" := by
  constructor
  · exact ((claimC8_amended [Annot.mk "testCaseId" (some "QA-999")]
      "[QA-123] login works").1 [] [] (Annot.mk "testCaseId" (some "QA-999"))
      rfl (by intro b hb; simp at hb) rfl).1 "QA-999" rfl (by decide)
  · have h := (claimC8_amended [] "[QA-123] login works").2
      (by intro a ha; simp at ha)
    rw [h]
    decide

/-! # Claim C9: ANSI stripping and URL validation -/

theorem stripAnsiStr_c9 :
    stripAnsiStr "\x1b[31mhttps://x.dev\x1b[0m" = "https://x.dev" := by
  unfold stripAnsiStr stripPasses
  rw [show ("\x1b[31mhttps://x.dev\x1b[0m".toList) =
      '\x1b' :: '[' :: ['3', '1', 'm', 'h', 't', 't', 'p', 's', ':', '/', '/', 'x', '.',
        'd', 'e', 'v', '\x1b', '[', '0', 'm'] from rfl]
  rw [stripEsc_match_step _ 'm'
    ['h', 't', 't', 'p', 's', ':', '/', '/', 'x', '.', 'd', 'e', 'v', '\x1b', '[', '0', 'm']
    (by decide) (by decide)]
  rw [show (['h', 't', 't', 'p', 's', ':', '/', '/', 'x', '.', 'd', 'e', 'v', '\x1b', '[',
      '0', 'm'] : List Char) =
      ['h', 't', 't', 'p', 's', ':', '/', '/', 'x', '.', 'd', 'e', 'v'] ++
        ('\x1b' :: '[' :: ['0', 'm']) from rfl]
  rw [stripEsc_clean_append _ _ (by decide)]
  rw [stripEsc_match_step ['0', 'm'] 'm' [] (by decide) (by decide)]
  rw [stripEsc.eq_1, List.append_nil]
  rw [stripBr_no_bracket _ (by decide), stripSemi_no_bracket _ (by decide)]
  rfl

/-- C9: `stripAnsi` removes the ANSI escape sequences from the spec's example
input; `sanitizeUrl` raises a configuration error for every input string that
is not a well-formed URL after stripping — in particular for `"not a url"` —
and whenever the stripped string does parse as a URL, `sanitizeUrl` returns
exactly that stripped string. -/
theorem claimC9 :
    stripAnsi (some "\x1b[31mhttps://x.dev\x1b[0m") = some "https://x.dev"
    ∧ (∀ url, urlCanParse (stripAnsiStr url) = false →
        sanitizeUrl url = Except.error ("Invalid URL format: " ++ stripAnsiStr url))
    ∧ (∃ msg, sanitizeUrl "not a url" = Except.error msg)
    ∧ (∀ url, urlCanParse (stripAnsiStr url) = true →
        sanitizeUrl url = Except.ok (stripAnsiStr url)) := by
  have herr : ∀ url, urlCanParse (stripAnsiStr url) = false →
      sanitizeUrl url = Except.error ("Invalid URL format: " ++ stripAnsiStr url) := by
    intro url h
    simp only [sanitizeUrl, stripAnsi_getD]
    rw [if_neg (by rw [h]; exact Bool.false_ne_true)]
  refine ⟨?_, herr, ?_, ?_⟩
  · show (if ("\x1b[31mhttps://x.dev\x1b[0m" : String) = "" then
        some ("\x1b[31mhttps://x.dev\x1b[0m" : String)
      else some (stripAnsiStr "\x1b[31mhttps://x.dev\x1b[0m")) = some "https://x.dev"
    rw [if_neg (by decide), stripAnsiStr_c9]
  · refine ⟨"Invalid URL format: " ++ stripAnsiStr "not a url", ?_⟩
    exact herr "not a url" (by
      rw [stripAnsiStr_clean "not a url" (by decide) (by decide) rfl]
      decide)
  · intro url h
    simp only [sanitizeUrl, stripAnsi_getD]
    rw [if_pos h]

/-- Witness for C9 at concrete inputs: `"not a url"` is rejected with the
configuration error, and the clean URL `https://x.dev` passes `sanitizeUrl`
unchanged. -/
theorem claimC9_witness :
    sanitizeUrl "not a url" =
        Except.error ("Invalid URL format: " ++ stripAnsiStr "not a url")
    ∧ sanitizeUrl "https://x.dev" = Except.ok (stripAnsiStr "https://x.dev") :=
  ⟨claimC9.2.1 "not a url" (by
      rw [stripAnsiStr_clean "not a url" (by decide) (by decide) rfl]
      decide),
   claimC9.2.2.2 "https://x.dev" (by
      rw [stripAnsiStr_clean "https://x.dev" (by decide) (by decide) rfl]
      decide)⟩
